import Mathlib

/-!
# Verification of a Burrows-Wheeler Transform implementation

Shallow embedding of the repository's Python sources:

* `src/src/bwt.py` — `find_unique_char`, `forward` (the BWT forward
  transform) and the `main` encode pipeline;
* `src/src/inverse_bwt.py` — `inverse` (LF-mapping based inverse
  transform) and the `main` decode pipeline.

Python strings are embedded as `List Char`; the `latin-1` decoding used by
both `main` functions maps byte `b` to the character of code point `b`, so
byte streams are embedded as `List Nat` and converted with `Char.ofNat`.
Python string comparison (lexicographic on code points) is embedded as the
boolean predicates `strLt` / `strLe` below.
-/

/-- Lexicographic strict order on strings, exactly Python's `<` on `str`
(compare code points position by position; a proper prefix is smaller). -/
def strLt : List Char → List Char → Bool
  | [], [] => false
  | [], _ :: _ => true
  | _ :: _, [] => false
  | x :: xs, y :: ys => if x < y then true else if y < x then false else strLt xs ys

/-- Lexicographic order on strings, exactly Python's `<=` on `str`. -/
def strLe : List Char → List Char → Bool
  | [], _ => true
  | _ :: _, [] => false
  | x :: xs, y :: ys => if x < y then true else if y < x then false else strLe xs ys

theorem strLt_irrefl (a : List Char) : strLt a a = false := by
  induction a with
  | nil => rfl
  | cons x xs ih => simp [strLt, ih]

theorem strLe_refl (a : List Char) : strLe a a = true := by
  induction a with
  | nil => rfl
  | cons x xs ih => simp [strLe, ih]

theorem strLe_iff_strLt_or_eq (a b : List Char) :
    strLe a b = true ↔ strLt a b = true ∨ a = b := by
  induction a generalizing b with
  | nil => cases b <;> simp [strLe, strLt]
  | cons x xs ih =>
    cases b with
    | nil => simp [strLe, strLt]
    | cons y ys =>
      by_cases hxy : x < y
      · simp [strLe, strLt, hxy]
      · by_cases hyx : y < x
        · have hne : x ≠ y := fun h => absurd (h ▸ hyx) (lt_irrefl x)
          simp [strLe, strLt, hxy, hyx, hne]
        · have hxeq : x = y := le_antisymm (not_lt.mp hyx) (not_lt.mp hxy)
          subst hxeq
          simp [strLe, strLt, ih]

theorem strLt_asymm {a b : List Char} (h : strLt a b = true) : strLt b a = false := by
  induction a generalizing b with
  | nil => cases b with
    | nil => exact absurd h (by simp [strLt])
    | cons y ys => rfl
  | cons x xs ih =>
    cases b with
    | nil => exact absurd h (by simp [strLt])
    | cons y ys =>
      by_cases hxy : x < y
      · have hyx : ¬ y < x := fun hc => absurd (lt_trans hxy hc) (lt_irrefl x)
        simp [strLt, hxy, hyx]
      · by_cases hyx : y < x
        · simp [strLt, hxy, hyx] at h
        · simp [strLt, hxy, hyx] at h ⊢
          exact ih h

theorem strLt_trichotomy (a b : List Char) :
    strLt a b = true ∨ a = b ∨ strLt b a = true := by
  induction a generalizing b with
  | nil => cases b <;> simp [strLt]
  | cons x xs ih =>
    cases b with
    | nil => simp [strLt]
    | cons y ys =>
      rcases lt_trichotomy x y with hxy | hxy | hxy
      · left; simp [strLt, hxy]
      · subst hxy
        rcases ih ys with h | h | h
        · left; simp [strLt, h]
        · right; left; rw [h]
        · right; right; simp [strLt, h]
      · have hnxy : ¬ x < y := fun hc => absurd (lt_trans hxy hc) (lt_irrefl y)
        right; right; simp [strLt, hxy, hnxy]

theorem strLt_trans {a b c : List Char} (hab : strLt a b = true)
    (hbc : strLt b c = true) : strLt a c = true := by
  induction a generalizing b c with
  | nil =>
    cases b with
    | nil => exact absurd hab (by simp [strLt])
    | cons y ys =>
      cases c with
      | nil => exact absurd hbc (by simp [strLt])
      | cons z zs => simp [strLt]
  | cons x xs ih =>
    cases b with
    | nil => exact absurd hab (by simp [strLt])
    | cons y ys =>
      cases c with
      | nil => exact absurd hbc (by simp [strLt])
      | cons z zs =>
        by_cases hxy : x < y
        · have hyz : y ≤ z := by
            by_cases h1 : y < z
            · exact le_of_lt h1
            · by_cases h2 : z < y
              · simp [strLt, h1, h2] at hbc
              · exact le_of_eq (le_antisymm (not_lt.mp h2) (not_lt.mp h1))
          have hxz : x < z := lt_of_lt_of_le hxy hyz
          simp [strLt, hxz]
        · by_cases hyx : y < x
          · simp [strLt, hxy, hyx] at hab
          · have hxeq : x = y := le_antisymm (not_lt.mp hyx) (not_lt.mp hxy)
            subst hxeq
            simp [strLt] at hab
            by_cases hyz : x < z
            · simp [strLt, hyz]
            · by_cases hzy : z < x
              · simp [strLt, hyz, hzy] at hbc
              · simp [strLt, hyz, hzy] at hbc ⊢
                exact ih hab hbc

theorem strLe_total (a b : List Char) : strLe a b = true ∨ strLe b a = true := by
  rcases strLt_trichotomy a b with h | h | h
  · left; exact (strLe_iff_strLt_or_eq a b).mpr (Or.inl h)
  · left; exact (strLe_iff_strLt_or_eq a b).mpr (Or.inr h)
  · right; exact (strLe_iff_strLt_or_eq b a).mpr (Or.inl h)

theorem strLe_trans {a b c : List Char} (hab : strLe a b = true)
    (hbc : strLe b c = true) : strLe a c = true := by
  rcases (strLe_iff_strLt_or_eq a b).mp hab with h1 | h1
  · rcases (strLe_iff_strLt_or_eq b c).mp hbc with h2 | h2
    · exact (strLe_iff_strLt_or_eq a c).mpr (Or.inl (strLt_trans h1 h2))
    · exact (strLe_iff_strLt_or_eq a c).mpr (Or.inl (h2 ▸ h1))
  · subst h1; exact hbc

theorem strLt_of_strLe_of_ne {a b : List Char} (h : strLe a b = true)
    (hne : a ≠ b) : strLt a b = true := by
  rcases (strLe_iff_strLt_or_eq a b).mp h with h1 | h1
  · exact h1
  · exact absurd h1 hne

/-- `strLt` only looks at positions after a common head. -/
theorem strLt_cons_same (c : Char) (u v : List Char) :
    strLt (c :: u) (c :: v) = strLt u v := by
  simp [strLt]

/-- Removing a common final character preserves `strLt` for equal-length
strings. -/
theorem strLt_concat_same {u v : List Char} (c : Char)
    (hlen : u.length = v.length) :
    strLt (u ++ [c]) (v ++ [c]) = strLt u v := by
  induction u generalizing v with
  | nil =>
    cases v with
    | nil => simp [strLt]
    | cons y ys => simp at hlen
  | cons x xs ih =>
    cases v with
    | nil => simp at hlen
    | cons y ys =>
      simp only [List.length_cons, Nat.add_right_cancel_iff] at hlen
      by_cases hxy : x < y
      · simp [strLt, hxy]
      · by_cases hyx : y < x
        · simp [strLt, hxy, hyx]
        · simp [strLt, hxy, hyx, ih hlen]

/-! ## Forward transform (`src/src/bwt.py`, `forward`) -/

/-- Last character of a (nonempty) string: Python `s[-1]`.  The default is
irrelevant: every use below is on a nonempty string (Python would raise
`IndexError` on the empty string, which is unreachable here). -/
def lastChar (s : List Char) : Char := s.getLastD ' '

/-- First character of a (nonempty) string: Python `s[0]`.  Used only in
proofs about the sorted rotation matrix. -/
def headChar (s : List Char) : Char := s.headD ' '

/-- One step of the rotation loop in `forward`:
`cur_str = cur_str[-1] + cur_str[:-1]` (move the last character to the
front).  `forward` only applies it to nonempty strings. -/
def rotR (s : List Char) : List Char :=
  match s with
  | [] => []
  | _ :: _ => lastChar s :: s.dropLast

/-- The loop `for _ in range(N): cur_str = ...; cyclic_rotations.append(cur_str)`
of `forward`, parameterised by the remaining iteration count. -/
def rotationsFrom : Nat → List Char → List (List Char)
  | 0, _ => []
  | k + 1, cur =>
    let nxt := rotR cur
    nxt :: rotationsFrom k nxt

/-- `STEP-2` of `forward`: all `N = len(input)` cyclic rotations, in the
order the Python loop appends them. -/
def cyclicRotations (s : List Char) : List (List Char) :=
  rotationsFrom s.length s

/-- `cyclic_rotations.sort()`: Python's stable ascending sort under
lexicographic string comparison.  A stable comparison sort's output is
uniquely determined by the comparison, so insertion sort is an exact
model of Timsort here. -/
def sortRotations (rows : List (List Char)) : List (List Char) :=
  rows.insertionSort (fun a b => strLe a b = true)

/-- `forward(input, delimiter)` of `src/src/bwt.py`: append the delimiter,
build and sort all cyclic rotations, return the string of last characters. -/
def forward (input : List Char) (delimiter : Char) : List Char :=
  let t := input ++ [delimiter]
  (sortRotations (cyclicRotations t)).map lastChar

/-! ## Inverse transform (`src/src/inverse_bwt.py`, `inverse`) -/

/-- Python indexing `t[i]` for the indices reachable in `inverse`:
`i = -1` (only before the first loop iteration, when the delimiter is
absent) denotes the last element, otherwise `i` is a valid nonnegative
index.  Out-of-range access is unreachable in the embedded runs. -/
def pyGet (t : List Char) (i : Int) : Char :=
  if i < 0 then t.getD (t.length - (-i).toNat) ' ' else t.getD i.toNat ' '

/-- `occ_table[i]`: number of occurrences of `transformed[i]` strictly
before position `i` — the code fills the table with exactly this value
(`occ_before.get(ch, 0)` at the moment position `i` is scanned).
Negative `i` (Python `occ_table[-1]`) denotes the last entry. -/
def occAt (t : List Char) (i : Int) : Nat :=
  let j := if i < 0 then t.length - (-i).toNat else i.toNat
  (t.take j).count (t.getD j ' ')

/-- `first_occurrence[c]`: index of the first occurrence of `c` in the
sorted first column.  The code accumulates `total` over the sorted distinct
characters of `transformed`, so for every character `c` that occurs in
`transformed` the looked-up value is the number of positions holding a
character strictly smaller than `c` (lookups at non-occurring characters
would raise `KeyError` and are unreachable). -/
def first_occurrence (t : List Char) (c : Char) : Nat :=
  t.countP (fun x => decide (x < c))

/-- One assignment `row = first_occurrence[transformed[row]] + occ_table[row]`
of the reconstruction loop. -/
def lfStep (t : List Char) (row : Int) : Int :=
  (first_occurrence t (pyGet t row) : Int) + (occAt t row : Int)

/-- `delimiter_row`: the loop
`for i, ch in enumerate(transformed): if ch == delimiter: delimiter_row = i`
starting from `-1`; i.e. the index of the last occurrence of the
delimiter, or `-1` if it does not occur. -/
def delimiter_row (t : List Char) (d : Char) : Int :=
  t.enum.foldl (fun acc p => if p.2 = d then (p.1 : Int) else acc) (-1)

/-- The `while True` reconstruction loop of `inverse`, with an explicit
fuel parameter: the Python loop is unbounded, and `none` models a run
that performs `fuel` iterations without hitting the delimiter.  (The loop
is proved below to terminate within `len(transformed)` iterations whenever
the delimiter occurs; when it does not occur, the Python loop never
breaks.)  `acc` holds the collected characters in reverse append order,
which is exactly the `result.reverse()` the Python code returns. -/
def lfLoop (t : List Char) (d : Char) : Nat → Int → List Char → Option (List Char)
  | 0, _, _ => none
  | fuel + 1, row, acc =>
    let row2 := lfStep t row
    let ch := pyGet t row2
    if ch = d then some acc
    else lfLoop t d fuel row2 (ch :: acc)

/-- `inverse(transformed, delimiter)` of `src/src/inverse_bwt.py`.  Empty
input returns the empty string before any table is built.  Otherwise the
LF reconstruction loop runs from `delimiter_row`; fuel `len(transformed)`
is sufficient for every terminating run of the Python loop, so a `none`
result models an infinite loop of the source program. -/
def inverse (transformed : List Char) (delimiter : Char) : Option (List Char) :=
  if transformed.length = 0 then some []
  else lfLoop transformed delimiter transformed.length
    (delimiter_row transformed delimiter) []

/-! ## Structure of the rotation list -/

theorem lastChar_concat (y : List Char) (c : Char) : lastChar (y ++ [c]) = c := by
  simp [lastChar]

theorem lastChar_eq_getLast {s : List Char} (h : s ≠ []) :
    lastChar s = s.getLast h := by
  simp [lastChar, List.getLastD_eq_getLast?, List.getLast?_eq_getLast s h]

theorem lastChar_cons_of_ne_nil {l : List Char} (a : Char) (h : l ≠ []) :
    lastChar (a :: l) = lastChar l := by
  cases l with
  | nil => exact absurd rfl h
  | cons b bs => simp [lastChar, List.getLastD_cons]

theorem concat_dropLast_lastChar {s : List Char} (h : s ≠ []) :
    s.dropLast ++ [lastChar s] = s := by
  rw [lastChar_eq_getLast h]
  exact List.dropLast_append_getLast h

theorem rotR_eq_of_ne_nil {s : List Char} (h : s ≠ []) :
    rotR s = lastChar s :: s.dropLast := by
  cases s with
  | nil => exact absurd rfl h
  | cons x xs => rfl

theorem rotR_concat (y : List Char) (c : Char) : rotR (y ++ [c]) = c :: y := by
  have h : y ++ [c] ≠ [] := by simp
  rw [rotR_eq_of_ne_nil h, lastChar_concat, List.dropLast_concat]

theorem rotR_length (s : List Char) : (rotR s).length = s.length := by
  cases s with
  | nil => rfl
  | cons x xs =>
    rw [rotR_eq_of_ne_nil (by simp)]
    simp [List.length_dropLast]

theorem rotR_ne_nil {s : List Char} (h : s ≠ []) : rotR s ≠ [] := by
  rw [rotR_eq_of_ne_nil h]
  simp

theorem rotR_iterate_length (k : Nat) (s : List Char) :
    (rotR^[k] s).length = s.length := by
  induction k generalizing s with
  | zero => rfl
  | succ k ih => rw [Function.iterate_succ_apply, ih, rotR_length]

theorem rotR_iterate_ne_nil (k : Nat) {s : List Char} (h : s ≠ []) :
    rotR^[k] s ≠ [] := by
  induction k generalizing s with
  | zero => exact h
  | succ k ih => rw [Function.iterate_succ_apply]; exact ih (rotR_ne_nil h)

/-- After `|v|` right-rotations the suffix `v` has moved to the front. -/
theorem rotR_iterate_append (k : Nat) :
    ∀ (u v : List Char), v.length = k → rotR^[k] (u ++ v) = v ++ u := by
  induction k with
  | zero =>
    intro u v hv
    rw [List.length_eq_zero.mp hv]
    simp
  | succ k ih =>
    intro u v hv
    rcases List.eq_nil_or_concat v with h | ⟨w, c, h⟩
    · rw [h] at hv; simp at hv
    · subst h
      simp only [List.concat_eq_append] at hv ⊢
      have hw : w.length = k := by simpa using hv
      rw [Function.iterate_succ_apply]
      have h1 : rotR (u ++ (w ++ [c])) = (c :: u) ++ w := by
        rw [← List.append_assoc, rotR_concat]
        rfl
      rw [h1, ih (c :: u) w hw]
      simp

theorem rotR_iterate_self (s : List Char) : rotR^[s.length] s = s := by
  have := rotR_iterate_append s.length ([] : List Char) s rfl
  simpa using this

theorem rotationsFrom_length (k : Nat) (s : List Char) :
    (rotationsFrom k s).length = k := by
  induction k generalizing s with
  | zero => rfl
  | succ k ih => simp [rotationsFrom, ih]

/-- The rotation list, written as a map over `range`. -/
theorem rotationsFrom_eq_map (k : Nat) (s : List Char) :
    rotationsFrom k s = (List.range k).map (fun i => rotR^[i + 1] s) := by
  induction k generalizing s with
  | zero => rfl
  | succ k ih =>
    rw [List.range_succ_eq_map]
    simp only [rotationsFrom, List.map_cons, List.map_map]
    rw [ih (rotR s)]
    rfl

theorem mem_rotationsFrom {x s : List Char} {k : Nat}
    (h : x ∈ rotationsFrom k s) : ∃ i, 1 ≤ i ∧ i ≤ k ∧ x = rotR^[i] s := by
  rw [rotationsFrom_eq_map] at h
  simp only [List.mem_map, List.mem_range] at h
  obtain ⟨i, hi, hx⟩ := h
  exact ⟨i + 1, by omega, by omega, hx.symm⟩

theorem drop_eq_dropLast_drop {l : List Char} (h : l ≠ []) {j : Nat}
    (hj : j ≤ l.length - 1) :
    l.drop j = l.dropLast.drop j ++ [lastChar l] := by
  conv_lhs => rw [← concat_dropLast_lastChar h]
  rw [List.drop_append_of_le_length (by rw [List.length_dropLast]; omega)]

/-- First characters of the rotation list: the last `k` characters of `x`,
reversed. -/
theorem map_headChar_rotationsFrom (k : Nat) :
    ∀ (x : List Char), x ≠ [] → k ≤ x.length →
      (rotationsFrom k x).map headChar = (x.drop (x.length - k)).reverse := by
  induction k with
  | zero =>
    intro x hx hk
    simp [rotationsFrom]
  | succ k ih =>
    intro x hx hk
    have hrx : rotR x ≠ [] := rotR_ne_nil hx
    simp only [rotationsFrom, List.map_cons]
    rw [ih (rotR x) hrx (by rw [rotR_length]; omega), rotR_length,
      rotR_eq_of_ne_nil hx]
    have hd : headChar (lastChar x :: x.dropLast) = lastChar x := rfl
    rw [hd]
    have hstep : x.length - k = (x.length - k - 1) + 1 := by omega
    rw [hstep, List.drop_succ_cons]
    have hidx : x.length - (k + 1) = x.length - k - 1 := by omega
    rw [hidx, drop_eq_dropLast_drop hx (by omega), List.reverse_append]
    simp

/-- Last characters of the first `k ≤ N - 1` rotations: characters
`x[N-2], x[N-3], ...` of `x` in reverse order. -/
theorem map_lastChar_rotationsFrom (k : Nat) :
    ∀ (x : List Char), x ≠ [] → k ≤ x.length - 1 →
      (rotationsFrom k x).map lastChar
        = (x.dropLast.drop (x.length - 1 - k)).reverse := by
  induction k with
  | zero =>
    intro x hx hk
    have : x.dropLast.drop (x.length - 1) = [] := by
      apply List.drop_eq_nil_of_le
      rw [List.length_dropLast]
    simp [rotationsFrom, this]
  | succ k ih =>
    intro x hx hk
    have hn2 : 2 ≤ x.length := by omega
    have hdL : x.dropLast ≠ [] := by
      intro hc
      have := List.length_dropLast x
      rw [hc] at this
      simp at this
      omega
    have hrx : rotR x ≠ [] := rotR_ne_nil hx
    simp only [rotationsFrom, List.map_cons]
    rw [ih (rotR x) hrx (by rw [rotR_length]; omega), rotR_length,
      rotR_eq_of_ne_nil hx]
    rw [lastChar_cons_of_ne_nil _ hdL, List.dropLast_cons_of_ne_nil hdL]
    have hstep : x.length - 1 - k = (x.length - 1 - k - 1) + 1 := by omega
    rw [hstep, List.drop_succ_cons]
    have hidx : x.length - 1 - (k + 1) = x.length - 1 - k - 1 := by omega
    rw [hidx, drop_eq_dropLast_drop hdL (by rw [List.length_dropLast]; omega),
      List.reverse_append]
    simp

theorem rotationsFrom_succ_concat (k : Nat) :
    ∀ x, rotationsFrom (k + 1) x = rotationsFrom k x ++ [rotR^[k + 1] x] := by
  induction k with
  | zero => intro x; rfl
  | succ k ih =>
    intro x
    show rotR x :: rotationsFrom (k + 1) (rotR x)
      = (rotR x :: rotationsFrom k (rotR x)) ++ [rotR^[k + 2] x]
    rw [ih (rotR x)]
    rfl

/-- The last column of the unsorted rotation list. -/
theorem map_lastChar_cyclicRotations {x : List Char} (hx : x ≠ []) :
    (cyclicRotations x).map lastChar = x.dropLast.reverse ++ [lastChar x] := by
  have hpos : 1 ≤ x.length := List.length_pos.mpr hx
  have hsucc : x.length = (x.length - 1) + 1 := by omega
  unfold cyclicRotations
  rw [show rotationsFrom x.length x = rotationsFrom ((x.length - 1) + 1) x by
    rw [← hsucc]]
  rw [rotationsFrom_succ_concat, List.map_append]
  rw [map_lastChar_rotationsFrom (x.length - 1) x hx (le_refl _)]
  rw [show (x.length - 1) + 1 = x.length by omega, rotR_iterate_self]
  simp

/-- The first column of the unsorted rotation list is `x` reversed. -/
theorem map_headChar_cyclicRotations {x : List Char} (hx : x ≠ []) :
    (cyclicRotations x).map headChar = x.reverse := by
  unfold cyclicRotations
  rw [map_headChar_rotationsFrom x.length x hx (le_refl _)]
  simp

/-- The last column of the rotation list is a permutation of `x` itself. -/
theorem map_lastChar_cyclicRotations_perm {x : List Char} (hx : x ≠ []) :
    ((cyclicRotations x).map lastChar).Perm x := by
  rw [map_lastChar_cyclicRotations hx]
  calc (x.dropLast.reverse ++ [lastChar x]).Perm (x.dropLast ++ [lastChar x]) :=
        (List.reverse_perm _).append_right _
    _ = x := concat_dropLast_lastChar hx

/-! ## Length, permutation and sentinel-count laws of `forward` -/

/-- `forward` output is a permutation of the delimited block.  (Shared
helper; the sort and the rotation stage each preserve the multiset.) -/
theorem forward_perm_append (input : List Char) (delimiter : Char) :
    (forward input delimiter).Perm (input ++ [delimiter]) := by
  unfold forward
  have ht : input ++ [delimiter] ≠ [] := by simp
  have h1 : (sortRotations (cyclicRotations (input ++ [delimiter]))).Perm
      (cyclicRotations (input ++ [delimiter])) := List.perm_insertionSort _ _
  exact (h1.map lastChar).trans (map_lastChar_cyclicRotations_perm ht)

theorem forward_length_eq (input : List Char) (delimiter : Char) :
    (forward input delimiter).length = input.length + 1 := by
  have h := (forward_perm_append input delimiter).length_eq
  simpa using h

theorem forward_count_delimiter (input : List Char) (delimiter : Char)
    (h : delimiter ∉ input) :
    (forward input delimiter).count delimiter = 1 := by
  rw [(forward_perm_append input delimiter).count_eq, List.count_append]
  rw [List.count_eq_zero.mpr h]
  simp

/-! ## The sorted rotation matrix -/

instance : IsTotal (List Char) (fun a b => strLe a b = true) := ⟨strLe_total⟩

instance : IsTrans (List Char) (fun a b => strLe a b = true) :=
  ⟨fun _ _ _ => strLe_trans⟩

theorem sortRotations_perm (rows : List (List Char)) :
    (sortRotations rows).Perm rows := List.perm_insertionSort _ _

theorem sortRotations_sorted (rows : List (List Char)) :
    (sortRotations rows).Pairwise (fun a b => strLe a b = true) :=
  List.sorted_insertionSort _ rows

/-- A sorted list without duplicates is strictly sorted. -/
theorem pairwise_strLt_of_sorted_nodup {l : List (List Char)}
    (hs : l.Pairwise (fun a b => strLe a b = true)) (hn : l.Nodup) :
    l.Pairwise (fun a b => strLt a b = true) :=
  (hs.and hn).imp (fun h => strLt_of_strLe_of_ne h.1 h.2)

/-- `countP` distributes over a disjunction of incompatible predicates. -/
theorem countP_or_split {α : Type} (p q : α → Bool) (l : List α)
    (hdisj : ∀ x ∈ l, ¬(p x = true ∧ q x = true)) :
    l.countP (fun x => p x || q x) = l.countP p + l.countP q := by
  induction l with
  | nil => rfl
  | cons a as ih =>
    have hdisj' : ∀ x ∈ as, ¬(p x = true ∧ q x = true) :=
      fun x hx => hdisj x (List.mem_cons_of_mem a hx)
    rw [List.countP_cons, List.countP_cons, List.countP_cons, ih hdisj']
    by_cases hp : p a = true
    · by_cases hq : q a = true
      · exact absurd ⟨hp, hq⟩ (hdisj a (List.mem_cons_self a as))
      · simp [hp, hq]
        omega
    · by_cases hq : q a = true
      · simp [hp, hq]
        omega
      · simp [hp, hq]

theorem rotR_iterate_eq_drop_take {t : List Char} {k : Nat} (hk : k ≤ t.length) :
    rotR^[k] t = t.drop (t.length - k) ++ t.take (t.length - k) := by
  have h2 : (t.drop (t.length - k)).length = k := by
    rw [List.length_drop]; omega
  calc rotR^[k] t
      = rotR^[k] (t.take (t.length - k) ++ t.drop (t.length - k)) := by
        rw [List.take_append_drop]
    _ = t.drop (t.length - k) ++ t.take (t.length - k) :=
        rotR_iterate_append k _ _ h2

/-- Splitting a list at a unique occurrence of an element is unambiguous. -/
theorem append_singleton_eq_of_not_mem {d : Char} :
    ∀ {u₁ u₂ w₁ w₂ : List Char}, d ∉ u₁ → d ∉ u₂ →
      u₁ ++ d :: w₁ = u₂ ++ d :: w₂ → u₁ = u₂ ∧ w₁ = w₂ := by
  intro u₁
  induction u₁ with
  | nil =>
    intro u₂ w₁ w₂ h1 h2 heq
    cases u₂ with
    | nil => simpa using heq
    | cons y ys =>
      simp only [List.nil_append, List.cons_append, List.cons.injEq] at heq
      exact absurd (heq.1 ▸ List.mem_cons_self y ys)
        (by rw [← heq.1] at h2; exact fun hc => h2 (heq.1 ▸ hc))
  | cons x xs ih =>
    intro u₂ w₁ w₂ h1 h2 heq
    cases u₂ with
    | nil =>
      simp only [List.cons_append, List.nil_append, List.cons.injEq] at heq
      exact absurd (heq.1 ▸ List.mem_cons_self x xs) (fun hc => h1 (by
        rw [heq.1]; exact List.mem_cons_self d xs))
    | cons y ys =>
      simp only [List.cons_append, List.cons.injEq] at heq
      have hx1 : d ∉ xs := fun hc => h1 (List.mem_cons_of_mem x hc)
      have hy2 : d ∉ ys := fun hc => h2 (List.mem_cons_of_mem y hc)
      obtain ⟨hu, hw⟩ := ih hx1 hy2 heq.2
      exact ⟨by rw [heq.1, hu], hw⟩

/-- With a delimiter absent from the block, the `N` cyclic rotations are
pairwise distinct. -/
theorem cyclicRotations_nodup {s : List Char} {d : Char} (hd : d ∉ s) :
    (cyclicRotations (s ++ [d])).Nodup := by
  unfold cyclicRotations
  rw [rotationsFrom_eq_map]
  apply List.Nodup.map_on _ (List.nodup_range _)
  intro a ha b hb hab
  rw [List.mem_range] at ha hb
  have hlen : (s ++ [d]).length = s.length + 1 := by simp
  have key : ∀ k, 1 ≤ k → k ≤ (s ++ [d]).length →
      rotR^[k] (s ++ [d])
        = s.drop ((s ++ [d]).length - k)
          ++ d :: (s ++ [d]).take ((s ++ [d]).length - k) := by
    intro k hk1 hk2
    rw [rotR_iterate_eq_drop_take hk2,
      List.drop_append_of_le_length (by omega)]
    simp
  have ha' := key (a + 1) (by omega) (by omega)
  have hb' := key (b + 1) (by omega) (by omega)
  rw [ha', hb'] at hab
  have hda : d ∉ s.drop ((s ++ [d]).length - (a + 1)) :=
    fun hc => hd ((List.drop_sublist _ _).mem hc)
  have hdb : d ∉ s.drop ((s ++ [d]).length - (b + 1)) :=
    fun hc => hd ((List.drop_sublist _ _).mem hc)
  obtain ⟨hu, _⟩ := append_singleton_eq_of_not_mem hda hdb hab
  have hlu : (s.drop ((s ++ [d]).length - (a + 1))).length
      = (s.drop ((s ++ [d]).length - (b + 1))).length := by rw [hu]
  rw [List.length_drop, List.length_drop] at hlu
  omega

theorem map_rotR_rotationsFrom (k : Nat) :
    ∀ x, (rotationsFrom k x).map rotR = rotationsFrom k (rotR x) := by
  induction k with
  | zero => intro x; rfl
  | succ k ih =>
    intro x
    simp only [rotationsFrom, List.map_cons]
    rw [ih (rotR x)]

/-- Applying one right-rotation to every rotation permutes the rotation
list (it advances the cycle by one). -/
theorem map_rotR_cyclicRotations_perm {t : List Char} (ht : t ≠ []) :
    ((cyclicRotations t).map rotR).Perm (cyclicRotations t) := by
  have hpos : 1 ≤ t.length := List.length_pos.mpr ht
  unfold cyclicRotations
  rw [map_rotR_rotationsFrom]
  have hsub : t.length = (t.length - 1) + 1 := by omega
  have hlast : rotR^[(t.length - 1) + 1] (rotR t) = rotR t := by
    rw [← hsub]
    rw [← Function.iterate_succ_apply]
    rw [Function.iterate_succ_apply', rotR_iterate_self]
  have e1 : rotationsFrom t.length (rotR t)
      = rotationsFrom (t.length - 1) (rotR t) ++ [rotR t] := by
    conv_lhs => rw [hsub]
    rw [rotationsFrom_succ_concat, hlast]
  have e2 : rotationsFrom t.length t
      = rotR t :: rotationsFrom (t.length - 1) (rotR t) := by
    conv_lhs => rw [hsub]
    rfl
  rw [e1, e2]
  exact List.perm_append_singleton _ _

/-! ## Index arithmetic in a strictly sorted list -/

/-- In a strictly sorted list, the number of elements smaller than the
element at index `i` is exactly `i`. -/
theorem countP_lt_getElem_of_pairwise {l : List (List Char)}
    (hp : l.Pairwise (fun a b => strLt a b = true)) (i : Nat)
    (hi : i < l.length) :
    l.countP (fun x => strLt x l[i]) = i := by
  have hdrop : l.drop i = l[i] :: l.drop (i + 1) := List.drop_eq_getElem_cons hi
  obtain ⟨b, hb⟩ : ∃ b, l[i] = b := ⟨l[i], rfl⟩
  rw [hb] at hdrop ⊢
  have hsplit : l.take i ++ l.drop i = l := List.take_append_drop i l
  have hpair : (l.take i ++ l.drop i).Pairwise (fun a b => strLt a b = true) := by
    rw [hsplit]; exact hp
  rw [List.pairwise_append] at hpair
  obtain ⟨hp1, hp2, hp12⟩ := hpair
  have hmem : b ∈ l.drop i := by rw [hdrop]; exact List.mem_cons_self _ _
  have h1 : (l.take i).countP (fun x => strLt x b) = i := by
    have hall : ∀ x ∈ l.take i, strLt x b = true := fun x hx => hp12 x hx b hmem
    rw [List.countP_eq_length.mpr hall, List.length_take]
    omega
  have h2 : (l.drop i).countP (fun x => strLt x b) = 0 := by
    rw [List.countP_eq_zero]
    intro a ha
    rw [hdrop] at ha hp2
    rcases List.mem_cons.mp ha with h | h
    · subst h; simp [strLt_irrefl]
    · have hba : strLt b a = true := (List.pairwise_cons.mp hp2).1 a h
      simp [strLt_asymm hba]
  calc l.countP (fun x => strLt x b)
      = (l.take i ++ l.drop i).countP (fun x => strLt x b) := by rw [hsplit]
    _ = i := by rw [List.countP_append, h1, h2]; omega

theorem countP_lt_length_of_mem {l : List (List Char)} {b : List Char}
    (hb : b ∈ l) :
    l.countP (fun x => strLt x b) < l.length := by
  by_contra hcon
  push_neg at hcon
  have hle := List.countP_le_length (fun x => strLt x b) (l := l)
  have heq : l.countP (fun x => strLt x b) = l.length := le_antisymm hle hcon
  have hself := List.countP_eq_length.mp heq b hb
  rw [strLt_irrefl] at hself
  exact absurd hself (by simp)

/-- Conversely, in a strictly sorted list a member sits exactly at the
index given by the number of smaller elements. -/
theorem getD_countP_lt {l : List (List Char)}
    (hp : l.Pairwise (fun a b => strLt a b = true)) {b : List Char}
    (hb : b ∈ l) :
    l.getD (l.countP (fun x => strLt x b)) [] = b := by
  obtain ⟨⟨j, hj⟩, hbj⟩ := List.mem_iff_get.mp hb
  rw [List.get_eq_getElem] at hbj
  have hcount : l.countP (fun x => strLt x b) = j := by
    have hcj := countP_lt_getElem_of_pairwise hp j hj
    rw [hbj] at hcj
    exact hcj
  rw [hcount, List.getD_eq_getElem l [] hj]
  exact hbj

/-- Members of a strictly sorted list that are smaller than the element at
index `i` are exactly the members of `take i`, so any conjunctive count
restricts to the prefix. -/
theorem countP_and_lt_eq_countP_take {l : List (List Char)}
    (hp : l.Pairwise (fun a b => strLt a b = true)) (i : Nat)
    (hi : i < l.length) (q : List Char → Bool) :
    l.countP (fun x => q x && strLt x l[i]) = (l.take i).countP q := by
  have hdrop : l.drop i = l[i] :: l.drop (i + 1) := List.drop_eq_getElem_cons hi
  obtain ⟨b, hb⟩ : ∃ b, l[i] = b := ⟨l[i], rfl⟩
  rw [hb] at hdrop ⊢
  have hsplit : l.take i ++ l.drop i = l := List.take_append_drop i l
  have hpair : (l.take i ++ l.drop i).Pairwise (fun a b => strLt a b = true) := by
    rw [hsplit]; exact hp
  rw [List.pairwise_append] at hpair
  obtain ⟨hp1, hp2, hp12⟩ := hpair
  have hmem : b ∈ l.drop i := by rw [hdrop]; exact List.mem_cons_self _ _
  have h1 : (l.take i).countP (fun x => q x && strLt x b)
      = (l.take i).countP q := by
    apply List.countP_congr
    intro x hx
    have hlt : strLt x b = true := hp12 x hx b hmem
    simp [hlt]
  have h2 : (l.drop i).countP (fun x => q x && strLt x b) = 0 := by
    rw [List.countP_eq_zero]
    intro a ha
    rw [hdrop] at ha hp2
    rcases List.mem_cons.mp ha with h | h
    · subst h; simp [strLt_irrefl]
    · have hba : strLt b a = true := (List.pairwise_cons.mp hp2).1 a h
      simp [strLt_asymm hba]
  calc l.countP (fun x => q x && strLt x b)
      = (l.take i ++ l.drop i).countP (fun x => q x && strLt x b) := by
        rw [hsplit]
    _ = (l.take i).countP q := by rw [List.countP_append, h1, h2]; omega

/-! ## The LF mapping moves one rotation backwards -/

/-- Proof-side name for the sorted rotation matrix built inside `forward`:
`forward input d = (bwtMatrix (input ++ [d])).map lastChar` definitionally. -/
def bwtMatrix (t : List Char) : List (List Char) :=
  sortRotations (cyclicRotations t)

/-- The row update `first_occurrence[transformed[row]] + occ_table[row]` of
the reconstruction loop, at a valid nonnegative row index. -/
def lfN (t : List Char) (i : Nat) : Nat :=
  first_occurrence t (t.getD i ' ') + (t.take i).count (t.getD i ' ')

theorem forward_eq_map_bwtMatrix (input : List Char) (delimiter : Char) :
    forward input delimiter
      = (bwtMatrix (input ++ [delimiter])).map lastChar := rfl

theorem bwtMatrix_length (t : List Char) :
    (bwtMatrix t).length = t.length := by
  unfold bwtMatrix sortRotations
  rw [List.length_insertionSort]
  unfold cyclicRotations
  exact rotationsFrom_length _ _

theorem bwtMatrix_perm (t : List Char) :
    (bwtMatrix t).Perm (cyclicRotations t) := List.perm_insertionSort _ _

theorem bwtMatrix_sorted (t : List Char) :
    (bwtMatrix t).Pairwise (fun a b => strLe a b = true) :=
  List.sorted_insertionSort _ _

theorem mem_cyclicRotations_iterate {t : List Char} {j : Nat} (h1 : 1 ≤ j)
    (h2 : j ≤ t.length) : rotR^[j] t ∈ cyclicRotations t := by
  unfold cyclicRotations
  rw [rotationsFrom_eq_map]
  rw [List.mem_map]
  exact ⟨j - 1, List.mem_range.mpr (by omega), by
    rw [show j - 1 + 1 = j by omega]⟩

theorem length_of_mem_cyclicRotations {t x : List Char}
    (hx : x ∈ cyclicRotations t) : x.length = t.length := by
  obtain ⟨i, _, _, hxe⟩ := mem_rotationsFrom hx
  rw [hxe, rotR_iterate_length]

theorem ne_nil_of_mem_cyclicRotations {t x : List Char} (ht : t ≠ [])
    (hx : x ∈ cyclicRotations t) : x ≠ [] := by
  obtain ⟨i, _, _, hxe⟩ := mem_rotationsFrom hx
  rw [hxe]
  exact rotR_iterate_ne_nil i ht

theorem headChar_rotR {Y : List Char} (h : Y ≠ []) :
    headChar (rotR Y) = lastChar Y := by
  rw [rotR_eq_of_ne_nil h]
  rfl

/-- The rotation one step backwards of a member rotation is again a member. -/
theorem rotR_mem_cyclicRotations {t x : List Char} (ht : t ≠ [])
    (hx : x ∈ cyclicRotations t) : rotR x ∈ cyclicRotations t := by
  obtain ⟨i, hi1, hi2, hxe⟩ := mem_rotationsFrom hx
  subst hxe
  have hstep : rotR (rotR^[i] t) = rotR^[i + 1] t :=
    (Function.iterate_succ_apply' rotR i t).symm
  rw [hstep]
  by_cases hend : i = t.length
  · subst hend
    have : rotR^[t.length + 1] t = rotR^[1] t := by
      rw [Function.iterate_succ_apply', rotR_iterate_self]
      rfl
    rw [this]
    exact mem_cyclicRotations_iterate (le_refl 1) (List.length_pos.mpr ht)
  · exact mem_cyclicRotations_iterate (by omega) (by omega)

/-- Written as a cons, `strLt` against a fixed cons splits into
"head smaller" or "head equal and still smaller". -/
theorem strLt_cons_split (x c : Char) (xs dB : List Char) :
    strLt (x :: xs) (c :: dB)
      = (decide (x < c) || ((x == c) && strLt (x :: xs) (c :: dB))) := by
  rcases lt_trichotomy x c with h | h | h
  · simp [strLt, h]
  · subst h
    simp [strLt_cons_same]
  · have hn : ¬ x < c := fun hc => absurd (lt_trans h hc) (lt_irrefl c)
    have hne : x ≠ c := fun hc => absurd (hc ▸ h) (lt_irrefl c)
    simp [strLt, hn, h, hne]

theorem getD_map_lastChar {M : List (List Char)} {i : Nat} (hi : i < M.length) :
    (M.map lastChar).getD i ' ' = lastChar (M.getD i []) := by
  rw [List.getD_eq_getElem _ _ (by simpa using hi), List.getD_eq_getElem _ _ hi,
    List.getElem_map]

/-- Stability under `rotR` of the order of two rows with the same last
character. -/
theorem strLt_rotR_iff_of_lastChar_eq {Y A : List Char} (hYne : Y ≠ [])
    (hAne : A ≠ []) (hlen : Y.length = A.length)
    (hYc : lastChar Y = lastChar A) :
    strLt (rotR Y) (rotR A) = strLt Y A := by
  rw [rotR_eq_of_ne_nil hYne, rotR_eq_of_ne_nil hAne, hYc, strLt_cons_same]
  have hdl : Y.dropLast.length = A.dropLast.length := by
    rw [List.length_dropLast, List.length_dropLast, hlen]
  rw [← strLt_concat_same (lastChar A) hdl]
  rw [show Y.dropLast ++ [lastChar A] = Y by
    rw [← hYc]; exact concat_dropLast_lastChar hYne]
  rw [concat_dropLast_lastChar hAne]

/-- Central lemma: on the sorted rotation matrix of a block with a unique
trailing delimiter, the row update computed by the reconstruction loop
moves from any row to the row holding that rotation shifted one step to
the right. -/
theorem lf_step_spec {s : List Char} {d : Char} (hd : d ∉ s) {i : Nat}
    (hi : i < (s ++ [d]).length) :
    lfN (forward s d) i < (s ++ [d]).length ∧
    (bwtMatrix (s ++ [d])).getD (lfN (forward s d) i) []
      = rotR ((bwtMatrix (s ++ [d])).getD i []) := by
  set t := s ++ [d] with ht_def
  have ht : t ≠ [] := by simp [ht_def]
  set M := bwtMatrix t with hM_def
  set T := forward s d with hT_def
  have hTM : T = M.map lastChar := rfl
  have hMlen : M.length = t.length := bwtMatrix_length t
  have hTlen : T.length = t.length := by rw [hTM, List.length_map, hMlen]
  have hperm : M.Perm (cyclicRotations t) := bwtMatrix_perm t
  have hnodupR : (cyclicRotations t).Nodup := cyclicRotations_nodup hd
  have hnodup : M.Nodup := (hperm.nodup_iff).mpr hnodupR
  have hstrict : M.Pairwise (fun a b => strLt a b = true) :=
    pairwise_strLt_of_sorted_nodup (bwtMatrix_sorted t) hnodup
  have hiM : i < M.length := by omega
  set A := M.getD i [] with hA_def
  have hAget : M.getD i [] = M[i] := List.getD_eq_getElem M [] hiM
  have hAi : A = M[i] := hA_def.trans hAget
  have hAmem : A ∈ M := by rw [hAi]; exact List.getElem_mem hiM
  have hAmemR : A ∈ cyclicRotations t := hperm.mem_iff.mp hAmem
  have hAne : A ≠ [] := ne_nil_of_mem_cyclicRotations ht hAmemR
  have hAlen : A.length = t.length := length_of_mem_cyclicRotations hAmemR
  set c := lastChar A with hc_def
  set B := rotR A with hB_def
  have hBmemR : B ∈ cyclicRotations t := rotR_mem_cyclicRotations ht hAmemR
  have hBmem : B ∈ M := hperm.mem_iff.mpr hBmemR
  have hBcons : B = c :: A.dropLast := by
    rw [hB_def, rotR_eq_of_ne_nil hAne]
  have hTi : T.getD i ' ' = c := by
    rw [hTM, getD_map_lastChar hiM]
  -- pointwise split of "strictly below B" by the head character
  have hpointsplit : ∀ X ∈ M, strLt X B
      = (decide (headChar X < c) || ((headChar X == c) && strLt X B)) := by
    intro X hX
    have hXne : X ≠ [] := ne_nil_of_mem_cyclicRotations ht (hperm.mem_iff.mp hX)
    cases X with
    | nil => exact absurd rfl hXne
    | cons x xs =>
      rw [hBcons]
      exact strLt_cons_split x c xs A.dropLast
  have hsplit : M.countP (fun X => strLt X B)
      = M.countP (fun X => decide (headChar X < c))
        + M.countP (fun X => (headChar X == c) && strLt X B) := by
    have h1 : M.countP (fun X => strLt X B)
        = M.countP
            (fun X => decide (headChar X < c) || ((headChar X == c) && strLt X B)) := by
      apply List.countP_congr
      intro X hX
      rw [← hpointsplit X hX]
    rw [h1]
    apply countP_or_split
    intro X hX hcon
    obtain ⟨hlt, heq⟩ := hcon
    rw [decide_eq_true_iff] at hlt
    rw [Bool.and_eq_true] at heq
    have heq' : headChar X = c := beq_iff_eq.mp heq.1
    rw [heq'] at hlt
    exact absurd hlt (lt_irrefl c)
  -- the head-smaller count is the C-table entry
  have hheads : M.countP (fun X => decide (headChar X < c))
      = first_occurrence T c := by
    have e1 : M.countP (fun X => decide (headChar X < c))
        = (M.map headChar).countP (fun ch => decide (ch < c)) := by
      rw [List.countP_map]
      rfl
    have e2 : (M.map headChar).countP (fun ch => decide (ch < c))
        = t.countP (fun ch => decide (ch < c)) := by
      rw [List.Perm.countP_eq _ (hperm.map headChar)]
      rw [map_headChar_cyclicRotations ht]
      exact List.Perm.countP_eq _ (List.reverse_perm t)
    have e3 : t.countP (fun ch => decide (ch < c))
        = T.countP (fun ch => decide (ch < c)) :=
      (List.Perm.countP_eq _ (forward_perm_append s d)).symm
    rw [e1, e2, e3]
    rfl
  -- the head-equal-and-below count is the rank entry
  have hrank : M.countP (fun X => (headChar X == c) && strLt X B)
      = (T.take i).count c := by
    have e2 : M.countP (fun X => (headChar X == c) && strLt X B)
        = ((cyclicRotations t).map rotR).countP
            (fun X => (headChar X == c) && strLt X B) := by
      rw [List.Perm.countP_eq _ hperm,
        List.Perm.countP_eq _ (map_rotR_cyclicRotations_perm ht)]
    have e3 : ((cyclicRotations t).map rotR).countP
          (fun X => (headChar X == c) && strLt X B)
        = (cyclicRotations t).countP (fun Y => (lastChar Y == c) && strLt Y A) := by
      rw [List.countP_map]
      apply List.countP_congr
      intro Y hY
      have hYne : Y ≠ [] := ne_nil_of_mem_cyclicRotations ht hY
      have hYlen : Y.length = t.length := length_of_mem_cyclicRotations hY
      simp only [Function.comp_apply]
      rw [headChar_rotR hYne]
      by_cases hYc : lastChar Y = c
      · have hrw : strLt (rotR Y) B = strLt Y A := by
          rw [hB_def]
          exact strLt_rotR_iff_of_lastChar_eq hYne hAne (by rw [hYlen, hAlen])
            (by rw [hYc, hc_def])
        rw [hrw]
      · simp [hYc]
    have e5 : (cyclicRotations t).countP (fun Y => (lastChar Y == c) && strLt Y A)
        = (M.take i).countP (fun Y => lastChar Y == c) := by
      rw [← List.Perm.countP_eq _ hperm]
      have := countP_and_lt_eq_countP_take hstrict i hiM
        (fun Y => lastChar Y == c)
      rw [← hAi] at this
      exact this
    have e6 : (M.take i).countP (fun Y => lastChar Y == c)
        = (T.take i).count c := by
      rw [hTM, ← List.map_take, List.count_eq_countP, List.countP_map]
      rfl
    rw [e2, e3, e5, e6]
  have hcount : M.countP (fun X => strLt X B) = lfN T i := by
    rw [hsplit, hheads, hrank]
    unfold lfN
    rw [hTi]
  have hbound : M.countP (fun X => strLt X B) < M.length :=
    countP_lt_length_of_mem hBmem
  have hbound' : lfN T i < M.length := by rw [← hcount]; exact hbound
  constructor
  · omega
  · have hgetD : M.getD (M.countP (fun x => strLt x B)) [] = B :=
      getD_countP_lt hstrict hBmem
    rw [hcount] at hgetD
    exact hgetD

/-! ## Bridging the loop state to the matrix walk -/

theorem pyGet_ofNat (t : List Char) (r : Nat) :
    pyGet t (r : Int) = t.getD r ' ' := by
  unfold pyGet
  rw [if_neg (by omega)]
  simp

theorem occAt_ofNat (t : List Char) (r : Nat) :
    occAt t (r : Int) = (t.take r).count (t.getD r ' ') := by
  unfold occAt
  rw [if_neg (by omega)]
  simp

theorem lfStep_ofNat (t : List Char) (r : Nat) :
    lfStep t (r : Int) = (lfN t r : Int) := by
  unfold lfStep lfN
  rw [pyGet_ofNat, occAt_ofNat]
  push_cast
  ring

theorem lastChar_append_right {u : List Char} (v : List Char) (hu : u ≠ []) :
    lastChar (v ++ u) = lastChar u := by
  rcases List.eq_nil_or_concat u with h | ⟨w, c, h⟩
  · exact absurd h hu
  · subst h
    simp only [List.concat_eq_append, ← List.append_assoc]
    rw [lastChar_concat, lastChar_concat]

theorem lastChar_take {l : List Char} {j : Nat} (h1 : 1 ≤ j)
    (h2 : j ≤ l.length) :
    lastChar (l.take j) = l.getD (j - 1) ' ' := by
  have hj : j - 1 < l.length := by omega
  have hc : (l.take (j - 1)).concat (l[j - 1]) = l.take ((j - 1) + 1) :=
    List.take_concat_get l (j - 1) hj
  rw [show (j - 1) + 1 = j by omega] at hc
  rw [← hc]
  simp only [List.concat_eq_append]
  rw [lastChar_concat, List.getD_eq_getElem l ' ' hj]

/-- Last characters of the nontrivial rotations of `s ++ [d]` are
characters of `s`. -/
theorem lastChar_rotR_iterate_mid {s : List Char} (d : Char) {k : Nat}
    (h1 : 1 ≤ k) (h2 : k ≤ s.length) :
    lastChar (rotR^[k] (s ++ [d])) = s.getD (s.length - k) ' ' := by
  have hn : (s ++ [d]).length = s.length + 1 := by simp
  have hk : k ≤ (s ++ [d]).length := by omega
  rw [rotR_iterate_eq_drop_take hk]
  have htne : (s ++ [d]).take ((s ++ [d]).length - k) ≠ [] := by
    have hlen : ((s ++ [d]).take ((s ++ [d]).length - k)).length
        = (s ++ [d]).length - k := by
      rw [List.length_take]
      omega
    intro hc
    rw [hc] at hlen
    simp at hlen
    omega
  rw [lastChar_append_right _ htne]
  rw [lastChar_take (by omega) (by omega)]
  have hidx : (s ++ [d]).length - k - 1 < s.length := by omega
  rw [List.getD_eq_getElem _ ' ' (by simp; omega),
    List.getElem_append_left hidx, List.getD_eq_getElem s ' ' (by omega)]
  congr 1
  omega

theorem lastChar_delimited (s : List Char) (d : Char) :
    lastChar (s ++ [d]) = d := lastChar_concat s d

/-- Behaviour of the `delimiter_row` fold: it keeps the accumulator when
the delimiter is absent, and otherwise returns some index holding the
delimiter. -/
theorem delimiter_row_foldl_spec (d : Char) :
    ∀ (l : List Char) (k : Nat) (acc : Int),
      ((l.enumFrom k).foldl
          (fun acc p => if p.2 = d then (p.1 : Int) else acc) acc = acc
        ∧ d ∉ l)
      ∨ (∃ j, j < l.length ∧ l.getD j ' ' = d
          ∧ (l.enumFrom k).foldl
              (fun acc p => if p.2 = d then (p.1 : Int) else acc) acc
            = ((k + j : Nat) : Int)) := by
  intro l
  induction l with
  | nil =>
    intro k acc
    left
    exact ⟨rfl, by simp⟩
  | cons x xs ih =>
    intro k acc
    have hunf : (x :: xs).enumFrom k = (k, x) :: xs.enumFrom (k + 1) := rfl
    rw [hunf, List.foldl_cons]
    rcases ih (k + 1) (if x = d then (k : Int) else acc) with ⟨heq, hnot⟩ | ⟨j, hj, hjd, heq⟩
    · by_cases hx : x = d
      · right
        refine ⟨0, by simp, by simpa using hx, ?_⟩
        rw [heq]
        simp [hx]
      · left
        constructor
        · rw [heq]
          simp [hx]
        · simp [hx, hnot]
          exact fun hc => hx hc.symm
    · right
      refine ⟨j + 1, by simp; omega, by simpa using hjd, ?_⟩
      rw [heq]
      congr 1
      omega

theorem delimiter_row_spec {t : List Char} {d : Char} (hd : d ∈ t) :
    0 ≤ delimiter_row t d ∧ (delimiter_row t d).toNat < t.length ∧
      t.getD (delimiter_row t d).toNat ' ' = d := by
  unfold delimiter_row
  rcases delimiter_row_foldl_spec d t 0 (-1) with ⟨heq, hnot⟩ | ⟨j, hj, hjd, heq⟩
  · exact absurd hd hnot
  · rw [show t.enum = t.enumFrom 0 from rfl, heq]
    refine ⟨by omega, ?_, ?_⟩
    · simp
      omega
    · simpa using hjd

theorem delimiter_row_not_mem {t : List Char} {d : Char} (hd : d ∉ t) :
    delimiter_row t d = -1 := by
  unfold delimiter_row
  rcases delimiter_row_foldl_spec d t 0 (-1) with ⟨heq, _⟩ | ⟨j, hj, hjd, _⟩
  · exact heq
  · exfalso
    apply hd
    rw [← hjd]
    rw [List.getD_eq_getElem t ' ' hj]
    exact List.getElem_mem hj

theorem lfLoop_succ (t : List Char) (d : Char) (fuel : Nat) (row : Int)
    (acc : List Char) :
    lfLoop t d (fuel + 1) row acc
      = (if pyGet t (lfStep t row) = d then some acc
         else lfLoop t d fuel (lfStep t row) (pyGet t (lfStep t row) :: acc)) :=
  rfl

/-- Round-trip: applied to `forward s d` with a delimiter `d` absent from
`s`, the reconstruction loop of `inverse` walks the rotation cycle
backwards from the delimiter row and rebuilds `s`.  Shared helper behind
the round-trip claims. -/
theorem inverse_forward {s : List Char} {d : Char} (hd : d ∉ s) :
    inverse (forward s d) d = some s := by
  set t := s ++ [d] with ht_def
  have ht : t ≠ [] := by simp [ht_def]
  set M := bwtMatrix t with hM_def
  set T := forward s d with hT_def
  have hTM : T = M.map lastChar := rfl
  have hn : t.length = s.length + 1 := by simp [ht_def]
  have hMlen : M.length = t.length := bwtMatrix_length t
  have hTlen : T.length = t.length := by rw [hTM, List.length_map, hMlen]
  have hdT : d ∈ T := (forward_perm_append s d).mem_iff.mpr (by simp)
  obtain ⟨hr0nn, hr0lt, hr0d⟩ := delimiter_row_spec hdT
  set r0 := (delimiter_row T d).toNat with hr0_def
  -- base: the delimiter row of the matrix holds the rotation `t` itself
  have hr0M : r0 < M.length := by omega
  have hbase : M.getD r0 [] = t := by
    have hlast : lastChar (M.getD r0 []) = d := by
      rw [← getD_map_lastChar hr0M, ← hTM]
      exact hr0d
    have hmemM : M.getD r0 [] ∈ M := by
      rw [List.getD_eq_getElem M [] hr0M]
      exact List.getElem_mem hr0M
    have hmem : M.getD r0 [] ∈ cyclicRotations t :=
      (bwtMatrix_perm t).mem_iff.mp hmemM
    obtain ⟨k, hk1, hk2, hke⟩ := mem_rotationsFrom hmem
    by_cases hkn : k = t.length
    · rw [hke, hkn]
      exact rotR_iterate_self t
    · exfalso
      have hks : k ≤ s.length := by omega
      have hmid := lastChar_rotR_iterate_mid d hk1 hks
      rw [← ht_def] at hmid
      rw [hke, hmid] at hlast
      have hmem_s : s.getD (s.length - k) ' ' ∈ s := by
        rw [List.getD_eq_getElem s ' ' (by omega)]
        exact List.getElem_mem (by omega)
      rw [hlast] at hmem_s
      exact hd hmem_s
  -- invariant of the LF walk
  have hINV : ∀ j, (lfN T)^[j] r0 < t.length
      ∧ M.getD ((lfN T)^[j] r0) [] = rotR^[j] t := by
    intro j
    induction j with
    | zero =>
      simp only [Function.iterate_zero_apply]
      exact ⟨by omega, hbase⟩
    | succ j ih =>
      have hstep := lf_step_spec hd (i := (lfN T)^[j] r0)
        (by rw [← ht_def]; exact ih.1)
      rw [← ht_def, ← hM_def, ← hT_def] at hstep
      rw [Function.iterate_succ_apply']
      exact ⟨hstep.1, by
        rw [hstep.2, ih.2]
        exact (Function.iterate_succ_apply' rotR j t).symm⟩
  -- characters read along the walk
  have hTgetD : ∀ i, i < M.length → T.getD i ' ' = lastChar (M.getD i []) := by
    intro i hi
    rw [hTM]
    exact getD_map_lastChar hi
  have hchar_mid : ∀ j, 1 ≤ j → j ≤ s.length →
      T.getD ((lfN T)^[j] r0) ' ' = s.getD (s.length - j) ' ' := by
    intro j hj1 hj2
    have hjM : (lfN T)^[j] r0 < M.length := by
      have := (hINV j).1
      omega
    rw [hTgetD _ hjM, (hINV j).2, ht_def]
    exact lastChar_rotR_iterate_mid d hj1 hj2
  have hchar_end : T.getD ((lfN T)^[s.length + 1] r0) ' ' = d := by
    have hjM : (lfN T)^[s.length + 1] r0 < M.length := by
      have := (hINV (s.length + 1)).1
      omega
    rw [hTgetD _ hjM, (hINV (s.length + 1)).2]
    rw [← hn, rotR_iterate_self, ht_def]
    exact lastChar_delimited s d
  -- the reconstruction loop, by descending position in the block
  have hQ : ∀ k, k ≤ s.length →
      lfLoop T d (k + 1) (((lfN T)^[s.length - k] r0 : Nat) : Int)
        (s.drop k) = some s := by
    intro k
    induction k with
    | zero =>
      intro _
      have hw : lfN T ((lfN T)^[s.length] r0) = (lfN T)^[s.length + 1] r0 :=
        (Function.iterate_succ_apply' (lfN T) s.length r0).symm
      rw [Nat.sub_zero, lfLoop_succ, lfStep_ofNat, pyGet_ofNat, hw,
        hchar_end, if_pos rfl, List.drop_zero]
    | succ k ihk =>
      intro hk
      have hw : lfN T ((lfN T)^[s.length - (k + 1)] r0)
          = (lfN T)^[s.length - (k + 1) + 1] r0 :=
        (Function.iterate_succ_apply' (lfN T) (s.length - (k + 1)) r0).symm
      rw [lfLoop_succ, lfStep_ofNat, pyGet_ofNat, hw,
        show s.length - (k + 1) + 1 = s.length - k by omega]
      have hch := hchar_mid (s.length - k) (by omega) (by omega)
      rw [show s.length - (s.length - k) = k by omega] at hch
      rw [hch]
      have hkmem : s.getD k ' ' ∈ s := by
        rw [List.getD_eq_getElem s ' ' (by omega)]
        exact List.getElem_mem (by omega)
      have hne : s.getD k ' ' ≠ d := fun hc => hd (hc ▸ hkmem)
      rw [if_neg hne]
      have hdropk : s.getD k ' ' :: s.drop (k + 1) = s.drop k := by
        rw [List.getD_eq_getElem s ' ' (by omega)]
        exact (List.drop_eq_getElem_cons (by omega)).symm
      rw [hdropk]
      exact ihk (by omega)
  have hfinal := hQ s.length (le_refl _)
  rw [Nat.sub_self, Function.iterate_zero_apply, List.drop_length] at hfinal
  show (if T.length = 0 then some []
    else lfLoop T d T.length (delimiter_row T d) []) = some s
  rw [if_neg (by omega)]
  have hdr : delimiter_row T d = ((r0 : Nat) : Int) := by
    rw [hr0_def, Int.toNat_of_nonneg hr0nn]
  rw [hdr, show T.length = s.length + 1 by omega]
  exact hfinal

/-! ## Termination of the reconstruction loop -/

theorem count_take_lt_count {t : List Char} {i : Nat} (hi : i < t.length) :
    (t.take i).count (t.getD i ' ') + 1 ≤ t.count (t.getD i ' ') := by
  obtain ⟨c, hc⟩ : ∃ c, t.getD i ' ' = c := ⟨t.getD i ' ', rfl⟩
  rw [hc]
  have hci : t[i] = c := by
    rw [← List.getD_eq_getElem t ' ' hi, hc]
  have hsplit : t.take i ++ t.drop i = t := List.take_append_drop i t
  conv_rhs => rw [← hsplit]
  rw [List.count_append]
  have hge : 1 ≤ (t.drop i).count c := by
    rw [List.drop_eq_getElem_cons hi, hci, List.count_cons]
    simp
  omega

theorem countP_lt_add_count_le (t : List Char) (c : Char) :
    t.countP (fun x => decide (x < c)) + t.count c ≤ t.length := by
  rw [List.count_eq_countP]
  rw [← countP_or_split]
  · exact List.countP_le_length _
  · intro x hx hcon
    obtain ⟨hlt, heq⟩ := hcon
    rw [decide_eq_true_iff] at hlt
    rw [beq_iff_eq] at heq
    rw [heq] at hlt
    exact absurd hlt (lt_irrefl c)

theorem countP_lt_add_count_le_countP_lt (t : List Char) {c1 c2 : Char}
    (h : c1 < c2) :
    t.countP (fun x => decide (x < c1)) + t.count c1
      ≤ t.countP (fun x => decide (x < c2)) := by
  rw [List.count_eq_countP]
  rw [← countP_or_split]
  · apply List.countP_mono_left
    intro x hx hor
    rw [Bool.or_eq_true] at hor
    rw [decide_eq_true_iff]
    rcases hor with h1 | h1
    · exact lt_trans (decide_eq_true_iff.mp h1) h
    · rw [beq_iff_eq.mp h1]
      exact h
  · intro x hx hcon
    obtain ⟨hlt, heq⟩ := hcon
    rw [decide_eq_true_iff] at hlt
    rw [beq_iff_eq] at heq
    rw [heq] at hlt
    exact absurd hlt (lt_irrefl c1)

/-- The row update always lands on a valid row. -/
theorem lfN_lt_length {t : List Char} {i : Nat} (hi : i < t.length) :
    lfN t i < t.length := by
  unfold lfN first_occurrence
  have h1 := count_take_lt_count hi
  have h2 := countP_lt_add_count_le t (t.getD i ' ')
  omega

/-- The row update is injective on valid rows. -/
theorem lfN_ne_of_lt {t : List Char} {i1 i2 : Nat} (h1 : i1 < t.length)
    (h2 : i2 < t.length) (hlt : i1 < i2) : lfN t i1 ≠ lfN t i2 := by
  obtain ⟨c1, hc1⟩ : ∃ c, t.getD i1 ' ' = c := ⟨t.getD i1 ' ', rfl⟩
  obtain ⟨c2, hc2⟩ : ∃ c, t.getD i2 ' ' = c := ⟨t.getD i2 ' ', rfl⟩
  rcases lt_trichotomy c1 c2 with hc | hc | hc
  · -- the whole class of c1 sits strictly below the class of c2
    apply Nat.ne_of_lt
    unfold lfN first_occurrence
    rw [hc1, hc2]
    have ha := count_take_lt_count h1
    rw [hc1] at ha
    have hb := countP_lt_add_count_le_countP_lt t hc
    have hcnt : (t.take i1).count c1 < t.count c1 := by omega
    omega
  · -- same character: ranks strictly increase with the position
    apply Nat.ne_of_lt
    unfold lfN first_occurrence
    rw [hc1, hc2, hc]
    have hmono : (t.take i1).count c2 + 1 ≤ (t.take i2).count c2 := by
      have hstep : (t.take (i1 + 1)).count c2
          = (t.take i1).count c2 + 1 := by
        have hci : t[i1] = c2 := by
          rw [← List.getD_eq_getElem t ' ' h1, hc1, hc]
        have htc : (t.take i1).concat (t[i1]) = t.take (i1 + 1) :=
          List.take_concat_get t i1 h1
        rw [← htc, hci]
        simp [List.count_concat]
      have hsub : t.take (i1 + 1) = (t.take i2).take (i1 + 1) := by
        rw [List.take_take]
        congr 1
        omega
      have hle : (t.take (i1 + 1)).count c2 ≤ (t.take i2).count c2 := by
        rw [hsub]
        exact (List.take_sublist _ _).count_le c2
      omega
    omega
  · -- symmetric: now the class of c2 sits strictly below
    apply Nat.ne_of_gt
    unfold lfN first_occurrence
    rw [hc1, hc2]
    have ha := count_take_lt_count h2
    rw [hc2] at ha
    have hb := countP_lt_add_count_le_countP_lt t hc
    omega

theorem lfN_inj {t : List Char} {i1 i2 : Nat} (h1 : i1 < t.length)
    (h2 : i2 < t.length) (heq : lfN t i1 = lfN t i2) : i1 = i2 := by
  rcases lt_trichotomy i1 i2 with h | h | h
  · exact absurd heq (lfN_ne_of_lt h1 h2 h)
  · exact h
  · exact absurd heq.symm (lfN_ne_of_lt h2 h1 h)

theorem lfN_iterate_lt {t : List Char} {r : Nat} (hr : r < t.length) :
    ∀ k, (lfN t)^[k] r < t.length := by
  intro k
  induction k with
  | zero => exact hr
  | succ k ih =>
    rw [Function.iterate_succ_apply']
    exact lfN_lt_length ih

theorem lfN_iterate_cancel {t : List Char} :
    ∀ (a : Nat) {x y : Nat}, x < t.length → y < t.length →
      (lfN t)^[a] x = (lfN t)^[a] y → x = y := by
  intro a
  induction a with
  | zero =>
    intro x y _ _ h
    simpa using h
  | succ a ih =>
    intro x y hx hy h
    rw [Function.iterate_succ_apply, Function.iterate_succ_apply] at h
    exact lfN_inj hx hy (ih (lfN_lt_length hx) (lfN_lt_length hy) h)

/-- Pigeonhole: the LF orbit of any valid row returns to it within
`len(transformed)` steps. -/
theorem lfN_orbit_returns {t : List Char} {r : Nat} (hr : r < t.length) :
    ∃ K, 1 ≤ K ∧ K ≤ t.length ∧ (lfN t)^[K] r = r := by
  have hvalid := lfN_iterate_lt hr
  have hmaps : ∀ a ∈ Finset.range (t.length + 1),
      (lfN t)^[a] r ∈ Finset.range t.length := by
    intro a _
    exact Finset.mem_range.mpr (hvalid a)
  obtain ⟨a, ha, b, hb, hab, habeq⟩ :=
    Finset.exists_ne_map_eq_of_card_lt_of_maps_to (by simp) hmaps
  rw [Finset.mem_range] at ha hb
  rcases Nat.lt_or_ge a b with h | h
  · refine ⟨b - a, by omega, by omega, ?_⟩
    have hsum : (lfN t)^[a + (b - a)] r = (lfN t)^[a] ((lfN t)^[b - a] r) :=
      Function.iterate_add_apply _ a (b - a) r
    rw [show a + (b - a) = b by omega] at hsum
    exact lfN_iterate_cancel a (hvalid (b - a)) hr (by rw [← hsum, habeq])
  · have h' : b < a := by omega
    refine ⟨a - b, by omega, by omega, ?_⟩
    have hsum : (lfN t)^[b + (a - b)] r = (lfN t)^[b] ((lfN t)^[a - b] r) :=
      Function.iterate_add_apply _ b (a - b) r
    rw [show b + (a - b) = a by omega] at hsum
    exact lfN_iterate_cancel b (hvalid (a - b)) hr (by rw [← hsum, habeq.symm])

/-- If the delimiter is reachable along the orbit within `fuel` steps, the
loop succeeds with that much fuel. -/
theorem lfLoop_isSome {t : List Char} {d : Char} :
    ∀ (fuel : Nat) (r : Nat) (acc : List Char), r < t.length →
      (∃ K, 1 ≤ K ∧ K ≤ fuel ∧ t.getD ((lfN t)^[K] r) ' ' = d) →
      (lfLoop t d fuel (r : Int) acc).isSome = true := by
  intro fuel
  induction fuel with
  | zero =>
    rintro r acc hr ⟨K, hK1, hK2, _⟩
    omega
  | succ fuel ih =>
    rintro r acc hr ⟨K, hK1, hK2, hKd⟩
    rw [lfLoop_succ, lfStep_ofNat, pyGet_ofNat]
    by_cases hch : t.getD (lfN t r) ' ' = d
    · rw [if_pos hch]
      rfl
    · rw [if_neg hch]
      have hK1' : K ≠ 1 := by
        intro hcon
        apply hch
        rw [← hKd, hcon]
        rfl
      have hKK : (lfN t)^[K - 1] (lfN t r) = (lfN t)^[K] r := by
        have hit := Function.iterate_succ_apply (lfN t) (K - 1) r
        rw [show (K - 1).succ = K by omega] at hit
        exact hit.symm
      exact ih (lfN t r) (t.getD (lfN t r) ' ' :: acc) (lfN_lt_length hr)
        ⟨K - 1, by omega, by omega, by rw [hKK]; exact hKd⟩

/-- Whenever the delimiter occurs, the reconstruction loop of `inverse`
terminates within `len(transformed)` iterations.  Shared helper. -/
theorem lfLoop_delim_isSome {t : List Char} {d : Char} (hd : d ∈ t) :
    (lfLoop t d t.length (delimiter_row t d) []).isSome = true := by
  obtain ⟨hnn, hlt, hgd⟩ := delimiter_row_spec hd
  have hdr : delimiter_row t d = (((delimiter_row t d).toNat : Nat) : Int) :=
    (Int.toNat_of_nonneg hnn).symm
  rw [hdr]
  apply lfLoop_isSome t.length _ [] hlt
  obtain ⟨K, hK1, hK2, hKr⟩ := lfN_orbit_returns hlt
  exact ⟨K, hK1, hK2, by rw [hKr]; exact hgd⟩

/-! ## `find_unique_char` and the two `main` pipelines -/

/-- `find_unique_char` of `src/src/bwt.py`: collect the set of byte values
occurring in the file, then return the first value of `range(256)` that is
unused, or `None` when every byte value occurs.  The file is embedded as
its list of byte values; the 8 KB chunked reading only affects how the set
is accumulated, not its contents. -/
def find_unique_char (file : List Nat) : Option Nat :=
  (List.range 256).find? (fun b => !decide (b ∈ file))

/-- The chunked reading loop `infile.read(block_size)` shared by both
`main` functions, with fuel `len l` (each nonempty read consumes at least
one byte when `block_size ≥ 1`, and reading stops at the first empty
chunk). -/
def chunksOfAux (bs : Nat) : Nat → List Char → List (List Char)
  | 0, _ => []
  | _ + 1, [] => []
  | fuel + 1, l => l.take bs :: chunksOfAux bs fuel (l.drop bs)

def chunksOf (bs : Nat) (l : List Char) : List (List Char) :=
  chunksOfAux bs l.length l

/-- The encode pipeline `main` of `src/src/bwt.py` on a byte stream:
pick the delimiter with `find_unique_char`, write it as the first byte of
the output, then append the forward transform of every `block_size`-byte
chunk.  Bytes are decoded latin-1, i.e. byte `b` becomes the character of
code point `b`.  `none` models the error exit when all 256 byte values
occur in the input. -/
def bwt_main (content : List Nat) (block_size : Nat) : Option (List Nat) :=
  match find_unique_char content with
  | none => none
  | some b =>
    let delimiter := Char.ofNat b
    let chunks := chunksOf block_size (content.map Char.ofNat)
    some (b :: ((chunks.map (fun ck => forward ck delimiter)).join.map
      Char.toNat))

/-- The decode pipeline `main` of `src/src/inverse_bwt.py`: split the
whole input stream (first byte included) into chunks of `block_size + 1`
bytes and apply `inverse` to each with its default delimiter `'$'` — the
code never reads a sentinel header.  A `none` result models a run in which
some chunk sends the reconstruction loop into an infinite loop. -/
def inverse_bwt_main (content : List Nat) (block_size : Nat) :
    Option (List Nat) :=
  let chunks := chunksOf (block_size + 1) (content.map Char.ofNat)
  (chunks.mapM (fun ck => inverse ck '$')).map
    (fun rs => rs.join.map Char.toNat)

theorem find?_range_some {p : Nat → Bool} :
    ∀ (n : Nat) (b : Nat), (List.range n).find? p = some b →
      b < n ∧ p b = true ∧ ∀ k, k < b → p k = false := by
  intro n
  induction n with
  | zero =>
    intro b h
    simp [List.range_zero] at h
  | succ n ih =>
    intro b h
    rw [List.range_succ, List.find?_append] at h
    cases hfind : (List.range n).find? p with
    | some b' =>
      rw [hfind] at h
      have hb : b' = b := by
        have hsome : (some b').or ((List.find? p [n])) = some b' := rfl
        rw [hsome] at h
        simpa using h
      subst hb
      obtain ⟨h1, h2, h3⟩ := ih b' hfind
      exact ⟨by omega, h2, h3⟩
    | none =>
      rw [hfind] at h
      have hnone : (Option.none).or (List.find? p [n]) = List.find? p [n] := rfl
      rw [hnone] at h
      have hall : ∀ k, k < n → p k = false := by
        intro k hk
        have := List.find?_eq_none.mp hfind k (List.mem_range.mpr hk)
        simpa using this
      by_cases hp : p n = true
      · have hb : b = n := by
          rw [List.find?_cons] at h
          rw [hp] at h
          simpa using h.symm
        subst hb
        exact ⟨by omega, hp, hall⟩
      · exfalso
        rw [List.find?_cons] at h
        rw [Bool.eq_false_iff.mpr hp] at h
        simp at h

/-- Full characterisation of `find_unique_char`: a `some` result is the
smallest unused byte value, and `None` appears exactly when every byte
value 0–255 occurs. -/
theorem find_unique_char_spec (file : List Nat) :
    (∀ b, find_unique_char file = some b →
      b < 256 ∧ b ∉ file ∧ ∀ k, k < b → k ∈ file) ∧
    (find_unique_char file = none ↔ ∀ b, b < 256 → b ∈ file) := by
  constructor
  · intro b h
    obtain ⟨h1, h2, h3⟩ := find?_range_some 256 b h
    refine ⟨h1, ?_, ?_⟩
    · intro hc
      rw [Bool.not_eq_true'] at h2
      exact (of_decide_eq_false h2) hc
    · intro k hk
      have hcur := h3 k hk
      rw [Bool.not_eq_false'] at hcur
      exact of_decide_eq_true hcur
  · unfold find_unique_char
    constructor
    · intro h b hb
      have hcur := List.find?_eq_none.mp h b (List.mem_range.mpr hb)
      rw [Bool.not_eq_true, Bool.not_eq_false'] at hcur
      exact of_decide_eq_true hcur
    · intro h
      rw [List.find?_eq_none]
      intro b hb
      rw [Bool.not_eq_true, Bool.not_eq_false']
      exact decide_eq_true_iff.mpr (h b (List.mem_range.mp hb))

/-! ## The reconstruction loop never breaks when the delimiter is absent -/

theorem lfStep_neg_one (t : List Char) :
    lfStep t (-1) = ((lfN t (t.length - 1) : Nat) : Int) := by
  unfold lfStep lfN pyGet occAt
  norm_num

/-- With the delimiter absent, the loop runs out of any amount of fuel:
started on a valid row it cycles through valid rows without ever reading
the delimiter. -/
theorem lfLoop_none_of_not_mem {t : List Char} {d : Char} (hd : d ∉ t) :
    ∀ (fuel : Nat) (j : Nat) (acc : List Char), j < t.length →
      lfLoop t d fuel (j : Int) acc = none := by
  intro fuel
  induction fuel with
  | zero =>
    intros
    rfl
  | succ fuel ih =>
    intro j acc hj
    rw [lfLoop_succ, lfStep_ofNat, pyGet_ofNat]
    have hmem : t.getD (lfN t j) ' ' ∈ t := by
      rw [List.getD_eq_getElem t ' ' (lfN_lt_length hj)]
      exact List.getElem_mem _
    rw [if_neg (fun hc => hd (by rw [← hc]; exact hmem))]
    exact ih (lfN t j) _ (lfN_lt_length hj)

/-- Same statement from the initial `delimiter_row = -1` state (Python's
`transformed[-1]` reads the last element, so the walk starts as if from
the last row). -/
theorem lfLoop_none_of_not_mem_start {t : List Char} {d : Char} (hd : d ∉ t)
    (hne : t ≠ []) :
    ∀ (fuel : Nat) (acc : List Char), lfLoop t d fuel (-1) acc = none := by
  have hpos : 0 < t.length := List.length_pos.mpr hne
  intro fuel acc
  cases fuel with
  | zero => rfl
  | succ fuel =>
    rw [lfLoop_succ, lfStep_neg_one, pyGet_ofNat]
    have hlt : lfN t (t.length - 1) < t.length := lfN_lt_length (by omega)
    have hmem : t.getD (lfN t (t.length - 1)) ' ' ∈ t := by
      rw [List.getD_eq_getElem t ' ' hlt]
      exact List.getElem_mem _
    rw [if_neg (fun hc => hd (by rw [← hc]; exact hmem))]
    exact lfLoop_none_of_not_mem hd fuel _ _ hlt

/-! ## Claim theorems -/

/-- C1: for every Block (string) and every single-byte Sentinel `S` such
that `S` does not occur in Block, applying the inverse transform to the
forward transform recovers the original:
`inverse(forward(Block, S), S) == Block`. -/
theorem C1_round_trip (block : List Char) (S : Char) (h : S ∉ block) :
    inverse (forward block S) S = some block :=
  inverse_forward h

theorem C1_round_trip_witness :
    '$' ∉ ['b', 'a', 'n', 'a', 'n', 'a'] ∧
    inverse (forward ['b', 'a', 'n', 'a', 'n', 'a'] '$') '$'
      = some ['b', 'a', 'n', 'a', 'n', 'a'] :=
  ⟨by decide, C1_round_trip ['b', 'a', 'n', 'a', 'n', 'a'] '$' (by decide)⟩

/-- C2 (counterexample to the claimed error handling): the code has no
MalformedTransformedBlock error at all.  With zero Sentinel occurrences
(input `"ab"`, sentinel `'$'`) the reconstruction loop never breaks —
it exhausts any amount of fuel, i.e. the Python `while True` loop hangs;
with multiple occurrences (input `"$$"`) `inverse` silently returns a
string instead of failing. -/
theorem C2_malformed_no_error :
    (∀ (fuel : Nat) (acc : List Char),
      lfLoop ['a', 'b'] '$' fuel (delimiter_row ['a', 'b'] '$') acc = none)
    ∧ inverse ['$', '$'] '$' = some [] := by
  constructor
  · intro fuel acc
    have hrow : delimiter_row ['a', 'b'] '$' = -1 := by decide
    rw [hrow]
    exact lfLoop_none_of_not_mem_start (by decide) (by decide) fuel acc
  · decide

/-- C3 (counterexample to header use): the encoder does persist the chosen
sentinel as a one-byte header, but the decoder never reads it — it splits
the whole stream (header byte included) into `block_size + 1` chunks and
inverts each with the fixed default sentinel `'$'`.  On the one-byte file
`"a"` (byte 97) the encoder picks sentinel byte 0 and emits `[0, 97, 0]`,
and decoding that stream hits the infinite loop (`none`), so the pipeline
does not reproduce the original stream. -/
theorem C3_decoder_ignores_header :
    bwt_main [97] 128 = some [0, 97, 0] ∧
    inverse_bwt_main [0, 97, 0] 128 = none ∧
    (bwt_main [97] 128).bind (fun enc => inverse_bwt_main enc 128)
      ≠ some [97] := by
  refine ⟨by decide, by decide, by decide⟩

/-- C4: for every Block and every single-byte Sentinel, the forward
transform's output has length exactly `len(Block) + 1`. -/
theorem C4_length_law (block : List Char) (S : Char) :
    (forward block S).length = block.length + 1 :=
  forward_length_eq block S

/-- C5: for every Block and single-byte Sentinel `S` with `S` not
occurring in Block, the Sentinel appears exactly once in
`forward(Block, S)`. -/
theorem C5_single_sentinel (block : List Char) (S : Char) (h : S ∉ block) :
    (forward block S).count S = 1 :=
  forward_count_delimiter block S h

theorem C5_single_sentinel_witness :
    '$' ∉ ['b', 'a', 'n', 'a', 'n', 'a'] ∧
    (forward ['b', 'a', 'n', 'a', 'n', 'a'] '$').count '$' = 1 :=
  ⟨by decide, C5_single_sentinel ['b', 'a', 'n', 'a', 'n', 'a'] '$' (by decide)⟩

/-- C6: for every byte stream, the sentinel selector returns the smallest
byte value in 0–255 that does not occur in the stream, and it returns
`None` if and only if all 256 byte values are present. -/
theorem C6_find_unique_char (file : List Nat) :
    (∀ b, find_unique_char file = some b →
      b < 256 ∧ b ∉ file ∧ ∀ k, k < b → k ∈ file) ∧
    (find_unique_char file = none ↔ ∀ b, b < 256 → b ∈ file) :=
  find_unique_char_spec file

theorem C6_find_unique_char_witness :
    3 < 256 ∧ 3 ∉ [0, 1, 2] ∧ ∀ k, k < 3 → k ∈ ([0, 1, 2] : List Nat) :=
  (C6_find_unique_char [0, 1, 2]).1 3 (by decide)

/-- C7: for every input string of length `n` in which the Sentinel occurs
at least once, the reconstruction loop of the inverse transform, started
from `delimiter_row`, terminates after at most `n` iterations (fuel `n`
suffices). -/
theorem C7_loop_terminates {transformed : List Char} {delimiter : Char}
    (h : delimiter ∈ transformed) :
    (lfLoop transformed delimiter transformed.length
      (delimiter_row transformed delimiter) []).isSome = true :=
  lfLoop_delim_isSome h

theorem C7_loop_terminates_witness :
    '$' ∈ ['a', 'n', 'n', 'b', '$', 'a', 'a'] ∧
    (lfLoop ['a', 'n', 'n', 'b', '$', 'a', 'a'] '$'
      (['a', 'n', 'n', 'b', '$', 'a', 'a'] : List Char).length
      (delimiter_row ['a', 'n', 'n', 'b', '$', 'a', 'a'] '$') []).isSome
      = true :=
  ⟨by decide, C7_loop_terminates (by decide)⟩

/-- C8: on the known vector, `forward("banana", '$') = "annb$aa"` and
`inverse("annb$aa", '$') = "banana"`. -/
theorem C8_known_vector :
    forward ['b', 'a', 'n', 'a', 'n', 'a'] '$'
      = ['a', 'n', 'n', 'b', '$', 'a', 'a'] ∧
    inverse ['a', 'n', 'n', 'b', '$', 'a', 'a'] '$'
      = some ['b', 'a', 'n', 'a', 'n', 'a'] := by
  constructor
  · decide
  · decide

/-- C9: for every Block and every single-byte Sentinel `S`, the output of
the forward transform is a permutation of `Block ++ [S]`. -/
theorem C9_forward_perm (block : List Char) (S : Char) :
    (forward block S).Perm (block ++ [S]) :=
  forward_perm_append block S

/-- C10: called on the empty string, the inverse transform returns the
empty string immediately and does not fail, although the empty string
contains no Sentinel occurrence. -/
theorem C10_inverse_empty (delimiter : Char) :
    inverse [] delimiter = some [] := rfl
